import Mathlib

/-!
Verification development for the cron scheduling library: a shallow embedding
of the schedule engine (`SpecSchedule.Next`, `dayMatches`), the `@every`
duration parsing (`parseEvery`, `parseDuration`, `ConstantDelaySchedule`),
the LRU expression cache (`parseWithCache`, `updateAccessOrder`), the
scheduler's `addTask`/`executeTask` admission control, and the `Monitor`
statistics bookkeeping, together with proofs of the spec-level properties.
-/

namespace Cron

/-! ### Proleptic Gregorian calendar model

`SpecSchedule.Next` works on Go `time.Time` values via the accessors
`Year/Month/Day/Hour/Minute/Second/Weekday`, the constructor `time.Date`,
and `Add`/`AddDate`.  We model an instant in a single fixed location as an
explicit broken-down date-time record and implement the same calendar
arithmetic (proleptic Gregorian, as Go's `time` package uses).
-/

/-- Gregorian leap-year rule (as in Go's `time` package). -/
def isLeap (y : Nat) : Bool :=
  y % 4 == 0 && (y % 100 != 0 || y % 400 == 0)

/-- Number of days in month `m` (1..12) of year `y`. -/
def daysInMonth (y m : Nat) : Nat :=
  if m = 2 then (if isLeap y then 29 else 28)
  else if m = 4 ∨ m = 6 ∨ m = 9 ∨ m = 11 then 30
  else 31

/-- Days in year `y` strictly before the first of month `m`. -/
def daysBeforeMonth (y m : Nat) : Nat :=
  let feb := if isLeap y then 29 else 28
  if m ≤ 1 then 0
  else if m = 2 then 31
  else if m = 3 then 31 + feb
  else if m = 4 then 62 + feb
  else if m = 5 then 92 + feb
  else if m = 6 then 123 + feb
  else if m = 7 then 153 + feb
  else if m = 8 then 184 + feb
  else if m = 9 then 215 + feb
  else if m = 10 then 245 + feb
  else if m = 11 then 276 + feb
  else if m = 12 then 306 + feb
  else 337 + feb

/-- Days in all years `0, 1, …, y-1` (closed form; the leap-day count over
`[0, y)` is `⌈y/4⌉ - ⌈y/100⌉ + ⌈y/400⌉`). -/
def daysBeforeYear (y : Nat) : Nat :=
  365 * y + (y + 3) / 4 - (y + 99) / 100 + (y + 399) / 400

/-- A broken-down instant: the fields Go's `time.Time` accessors expose
(month `1..12`, day `1..31`, nanosecond `0..999999999`). -/
structure DateTime where
  year : Nat
  month : Nat
  day : Nat
  hour : Nat
  minute : Nat
  sec : Nat
  nsec : Nat
deriving DecidableEq, Repr

/-- A `DateTime` whose fields are in the ranges Go's accessors guarantee. -/
def Valid (t : DateTime) : Prop :=
  1 ≤ t.month ∧ t.month ≤ 12 ∧
  1 ≤ t.day ∧ t.day ≤ daysInMonth t.year t.month ∧
  t.hour ≤ 23 ∧ t.minute ≤ 59 ∧ t.sec ≤ 59 ∧ t.nsec ≤ 999999999

instance (t : DateTime) : Decidable (Valid t) := by
  unfold Valid; infer_instance

/-- Serial day number of the date (days since 0000-01-01). -/
def dayNumber (t : DateTime) : Nat :=
  daysBeforeYear t.year + daysBeforeMonth t.year t.month + (t.day - 1)

/-- Seconds since the epoch 0000-01-01T00:00:00 (whole-second part). -/
def toSec (t : DateTime) : Nat :=
  dayNumber t * 86400 + t.hour * 3600 + t.minute * 60 + t.sec

/-- Nanoseconds since the epoch: the linear order on instants. -/
def toNano (t : DateTime) : Nat :=
  toSec t * 1000000000 + t.nsec

/-- Day of week as Go's `time.Weekday` numbers it (Sunday = 0 … Saturday = 6).
The offset 6 anchors 2000-01-01 (day number 730485) to Saturday. -/
def weekday (t : DateTime) : Nat :=
  (dayNumber t + 6) % 7


/-! ### SpecSchedule and its Next search

Embeds `SpecSchedule`, `dayMatches` and `SpecSchedule.Next` from the parser
package.  The six `uint64` bit sets become `Nat`s whose bits below 64 are
used; a value `v` is a member of a field iff bit `v` is set, and bit 63
(`starBit`) records that the field was a star.
-/

/-- `starBit`: set in a field's bit set if a star was included in the
expression (top bit of the `uint64`). -/
def starBit : Nat := 63

/-- `SpecSchedule` from the parser package: six bit sets.  (The `Location`
override is a reprojection of the same instant into another zone; the model
works in one fixed zone, so it is omitted.) -/
structure SpecSchedule where
  Second : Nat
  Minute : Nat
  Hour : Nat
  Dom : Nat
  Month : Nat
  Dow : Nat
deriving DecidableEq, Repr

/-- `dayMatches`: day-of-month/day-of-week satisfaction for instant `t`.
Mirrors the source: if either `Dom` or `Dow` carries `starBit`, both must
match (the starred one matches everything); otherwise either suffices. -/
def dayMatches (s : SpecSchedule) (t : DateTime) : Bool :=
  let domMatch := s.Dom.testBit t.day
  let dowMatch := s.Dow.testBit (weekday t)
  if s.Dom.testBit starBit || s.Dow.testBit starBit then
    domMatch && dowMatch
  else
    domMatch || dowMatch

/-- Jump to the first instant of the next month
(`time.Date(y, m+1, 1, 0,0,0,0)`, rolling December into January). -/
def monthStart (t : DateTime) : DateTime :=
  if t.month = 12 then ⟨t.year + 1, 1, 1, 0, 0, 0, 0⟩
  else ⟨t.year, t.month + 1, 1, 0, 0, 0, 0⟩

/-- `t.AddDate(0,0,1)` followed by truncation to midnight
(calendar carry of one day). -/
def dayStep (t : DateTime) : DateTime :=
  if t.day < daysInMonth t.year t.month then ⟨t.year, t.month, t.day + 1, 0, 0, 0, 0⟩
  else if t.month < 12 then ⟨t.year, t.month + 1, 1, 0, 0, 0, 0⟩
  else ⟨t.year + 1, 1, 1, 0, 0, 0, 0⟩

/-- `t.Add(1h)` followed by truncation to the whole hour. -/
def hourStep (t : DateTime) : DateTime :=
  if t.hour < 23 then ⟨t.year, t.month, t.day, t.hour + 1, 0, 0, 0⟩
  else dayStep t

/-- `t.Add(1m)` followed by truncation to the whole minute. -/
def minuteStep (t : DateTime) : DateTime :=
  if t.minute < 59 then ⟨t.year, t.month, t.day, t.hour, t.minute + 1, 0, 0⟩
  else hourStep t

/-- `t.Add(1s)` (nanoseconds are preserved, carries are calendar carries). -/
def secondStep (t : DateTime) : DateTime :=
  if t.sec < 59 then { t with sec := t.sec + 1 }
  else if t.minute < 59 then { t with minute := t.minute + 1, sec := 0 }
  else if t.hour < 23 then { t with hour := t.hour + 1, minute := 0, sec := 0 }
  else { dayStep t with nsec := t.nsec }

/-- The entry adjustment `t.Add(1s - ns·1ns)`: round up to the next whole
second boundary. -/
def entryStep (t : DateTime) : DateTime :=
  secondStep { t with nsec := 0 }

/-- Result of the bounded search: a match, "unsatisfiable" (the Go code's
zero time), or fuel exhaustion (which §`search_no_fuelOut` shows is
unreachable for the fuel `Next` supplies). -/
inductive SearchResult where
  | found (t : DateTime)
  | unsat
  | fuelOut
deriving DecidableEq, Repr

/-- The body of `SpecSchedule.Next`'s `WRAP` loop.  The Go original is a
`goto`-driven nest of five inner loops; every `goto WRAP` restarts at the
outer loop's `t.Year() < yearLimit` test and re-checks the fields from the
coarsest down.  This recursion restarts from the coarsest field after every
single advance, which is behaviour-identical: an advance that does not roll
over a coarser unit leaves all coarser fields (which had just matched)
unchanged, so the re-checks fall straight through to the field being
advanced. -/
def search (s : SpecSchedule) (limit : Nat) : Nat → DateTime → SearchResult
  | 0, _ => .fuelOut
  | fuel + 1, t =>
    if limit ≤ t.year then .unsat
    -- month loop: jump to the first day of the next month
    else if !(s.Month.testBit t.month) then
      if limit ≤ (monthStart t).year then .unsat
      else search s limit fuel (monthStart t)
    -- day loop: add a day, truncated to midnight
    else if !(dayMatches s t) then
      if (dayStep t).day = 1 then search s limit fuel (dayStep t)  -- goto WRAP
      else if limit ≤ (dayStep t).year then .unsat
      else search s limit fuel (dayStep t)
    else if !(s.Hour.testBit t.hour) then
      if (hourStep t).hour = 0 then search s limit fuel (hourStep t)  -- goto WRAP
      else if limit ≤ (hourStep t).year then .unsat
      else search s limit fuel (hourStep t)
    else if !(s.Minute.testBit t.minute) then
      if (minuteStep t).minute = 0 then search s limit fuel (minuteStep t)  -- goto WRAP
      else if limit ≤ (minuteStep t).year then .unsat
      else search s limit fuel (minuteStep t)
    else if !(s.Second.testBit t.sec) then
      if (secondStep t).sec = 0 then search s limit fuel (secondStep t)  -- goto WRAP
      else if limit ≤ (secondStep t).year then .unsat
      else search s limit fuel (secondStep t)
    else .found t

/-- Fuel that theorem `search`-termination shows is never exhausted: one
more than the number of seconds from the epoch to the start of `limit`. -/
def searchFuel (limit : Nat) : Nat :=
  86400 * daysBeforeYear limit + 1

/-- `SpecSchedule.Next`: the next activation strictly after `t`, or `none`
(the Go zero time) if none exists up to the `yearLimit = t.Year() + 4`
horizon computed after the initial one-second round-up. -/
def SpecSchedule.Next (s : SpecSchedule) (t : DateTime) : Option DateTime :=
  match search s ((entryStep t).year + 4) (searchFuel ((entryStep t).year + 4))
      (entryStep t) with
  | .found r => some r
  | _ => none

/-! ### Calendar arithmetic lemmas -/

theorem daysInMonth_pos (y m : Nat) : 1 ≤ daysInMonth y m := by
  unfold daysInMonth; split_ifs <;> omega

theorem daysInMonth_le (y m : Nat) : daysInMonth y m ≤ 31 := by
  unfold daysInMonth; split_ifs <;> omega

theorem daysBeforeMonth_step {y m : Nat} (h1 : 1 ≤ m) (h2 : m ≤ 12) :
    daysBeforeMonth y (m + 1) = daysBeforeMonth y m + daysInMonth y m := by
  interval_cases m <;>
    cases hl : isLeap y <;>
    simp [daysBeforeMonth, daysInMonth, hl]

theorem daysBeforeMonth_le13 {y m : Nat} (h : m ≤ 13) :
    daysBeforeMonth y m ≤ daysBeforeMonth y 13 := by
  interval_cases m <;> cases hl : isLeap y <;> simp [daysBeforeMonth, hl]

theorem daysBeforeMonth_one (y : Nat) : daysBeforeMonth y 1 = 0 := by
  simp [daysBeforeMonth]

theorem isLeap_iff (y : Nat) :
    isLeap y = true ↔ (y % 4 = 0 ∧ (y % 100 ≠ 0 ∨ y % 400 = 0)) := by
  simp [isLeap]

theorem daysBeforeMonth_13 (y : Nat) :
    daysBeforeMonth y 13 = if isLeap y then 366 else 365 := by
  cases hl : isLeap y <;> simp [daysBeforeMonth, hl]

theorem daysBeforeYear_succ (y : Nat) :
    daysBeforeYear (y + 1) = daysBeforeYear y + daysBeforeMonth y 13 := by
  rw [daysBeforeMonth_13]
  by_cases h4 : y % 4 = 0
  · by_cases h100 : y % 100 = 0
    · by_cases h400 : y % 400 = 0
      · rw [show (if isLeap y then 366 else 365) = 366 from by
          simp [isLeap, h4, h100, h400]]
        have e1 : (y+1+3)/4 = (y+3)/4 + 1 := by omega
        have e2 : (y+1+99)/100 = (y+99)/100 + 1 := by omega
        have e3 : (y+1+399)/400 = (y+399)/400 + 1 := by omega
        have e4 : (y+3)/4 ≥ (y+99)/100 := by omega
        unfold daysBeforeYear
        rw [e1, e2, e3]
        generalize (y+3)/4 = A at e4 ⊢
        generalize (y+99)/100 = B at e4 ⊢
        generalize (y+399)/400 = C
        omega
      · rw [show (if isLeap y then 366 else 365) = 365 from by
          simp [isLeap, h4, h100, h400]]
        have e1 : (y+1+3)/4 = (y+3)/4 + 1 := by omega
        have e2 : (y+1+99)/100 = (y+99)/100 + 1 := by omega
        have e3 : (y+1+399)/400 = (y+399)/400 := by omega
        have e4 : (y+3)/4 ≥ (y+99)/100 := by omega
        unfold daysBeforeYear
        rw [e1, e2, e3]
        generalize (y+3)/4 = A at e4 ⊢
        generalize (y+99)/100 = B at e4 ⊢
        generalize (y+399)/400 = C
        omega
    · rw [show (if isLeap y then 366 else 365) = 366 from by
        simp [isLeap, h4, h100]]
      have e1 : (y+1+3)/4 = (y+3)/4 + 1 := by omega
      have e2 : (y+1+99)/100 = (y+99)/100 := by omega
      have e3 : (y+1+399)/400 = (y+399)/400 := by omega
      have e4 : (y+3)/4 ≥ (y+99)/100 := by omega
      unfold daysBeforeYear
      rw [e1, e2, e3]
      generalize (y+3)/4 = A at e4 ⊢
      generalize (y+99)/100 = B at e4 ⊢
      generalize (y+399)/400 = C
      omega
  · rw [show (if isLeap y then 366 else 365) = 365 from by simp [isLeap, h4]]
    have h100 : y % 100 ≠ 0 := by omega
    have h400 : y % 400 ≠ 0 := by omega
    have e1 : (y+1+3)/4 = (y+3)/4 := by omega
    have e2 : (y+1+99)/100 = (y+99)/100 := by omega
    have e3 : (y+1+399)/400 = (y+399)/400 := by omega
    have e4 : (y+3)/4 ≥ (y+99)/100 := by omega
    unfold daysBeforeYear
    rw [e1, e2, e3]
    generalize (y+3)/4 = A at e4 ⊢
    generalize (y+99)/100 = B at e4 ⊢
    generalize (y+399)/400 = C
    omega

theorem daysBeforeYear_mono {y y' : Nat} (h : y ≤ y') :
    daysBeforeYear y ≤ daysBeforeYear y' := by
  induction y', h using Nat.le_induction with
  | base => exact Nat.le_refl _
  | succ n hn ih =>
      have hs := daysBeforeYear_succ n
      omega

theorem dayNumber_lt {t : DateTime} (h : Valid t) :
    dayNumber t < daysBeforeYear (t.year + 1) := by
  obtain ⟨hm1, hm2, hd1, hd2, -, -, -, -⟩ := h
  have hstep := daysBeforeMonth_step (y := t.year) hm1 hm2
  have hle : daysBeforeMonth t.year (t.month + 1) ≤ daysBeforeMonth t.year 13 :=
    daysBeforeMonth_le13 (by omega)
  have hsucc := daysBeforeYear_succ t.year
  unfold dayNumber
  omega

theorem toSec_lt_limit {t : DateTime} {limit : Nat} (h : Valid t)
    (hy : t.year < limit) : toSec t < 86400 * daysBeforeYear limit := by
  have h1 := dayNumber_lt h
  have h2 : daysBeforeYear (t.year + 1) ≤ daysBeforeYear limit :=
    daysBeforeYear_mono (by omega)
  obtain ⟨-, -, -, -, hh, hmi, hs, -⟩ := h
  unfold toSec
  omega

/-! ### Candidate-advance step lemmas: validity is preserved and every
advance strictly increases the instant. -/

theorem Valid_mk {y m d hh mi s ns : Nat} :
    Valid ⟨y, m, d, hh, mi, s, ns⟩ ↔
      (1 ≤ m ∧ m ≤ 12 ∧ 1 ≤ d ∧ d ≤ daysInMonth y m ∧
        hh ≤ 23 ∧ mi ≤ 59 ∧ s ≤ 59 ∧ ns ≤ 999999999) :=
  Iff.rfl

theorem toSec_mk {y m d hh mi s ns : Nat} :
    toSec ⟨y, m, d, hh, mi, s, ns⟩ =
      (daysBeforeYear y + daysBeforeMonth y m + (d - 1)) * 86400 +
        hh * 3600 + mi * 60 + s :=
  rfl

theorem dayStep_spec {t : DateTime} (h : Valid t) :
    Valid (dayStep t) ∧ toSec (dayStep t) = (dayNumber t + 1) * 86400 := by
  obtain ⟨hm1, hm2, hd1, hd2, hh, hmi, hs, hn⟩ := h
  unfold dayStep
  split_ifs with h1 h2
  · rw [Valid_mk, toSec_mk]
    simp only [dayNumber]
    omega
  · have hstep := daysBeforeMonth_step (y := t.year) hm1 hm2
    have hpos := daysInMonth_pos t.year (t.month + 1)
    rw [Valid_mk, toSec_mk]
    simp only [dayNumber]
    omega
  · have hm12 : t.month = 12 := by omega
    have hstep13 : daysBeforeMonth t.year 13 =
        daysBeforeMonth t.year 12 + daysInMonth t.year 12 :=
      daysBeforeMonth_step (by omega) (by omega)
    have hsucc := daysBeforeYear_succ t.year
    have hpos := daysInMonth_pos (t.year + 1) 1
    have hone := daysBeforeMonth_one (t.year + 1)
    rw [Valid_mk, toSec_mk]
    simp only [dayNumber]
    rw [hm12] at h1 hd2 ⊢
    omega

theorem dayStep_gt {t : DateTime} (h : Valid t) :
    Valid (dayStep t) ∧ toSec t < toSec (dayStep t) := by
  obtain ⟨hv, he⟩ := dayStep_spec h
  obtain ⟨-, -, -, -, hh, hmi, hs, -⟩ := h
  refine ⟨hv, ?_⟩
  rw [he]
  unfold toSec
  omega

theorem monthStart_spec {t : DateTime} (h : Valid t) :
    Valid (monthStart t) ∧ toSec t < toSec (monthStart t) := by
  obtain ⟨hm1, hm2, hd1, hd2, hh, hmi, hs, hn⟩ := h
  unfold monthStart
  split_ifs with h12
  · have hstep13 : daysBeforeMonth t.year 13 =
        daysBeforeMonth t.year 12 + daysInMonth t.year 12 :=
      daysBeforeMonth_step (by omega) (by omega)
    have hsucc := daysBeforeYear_succ t.year
    have hpos := daysInMonth_pos (t.year + 1) 1
    have hone := daysBeforeMonth_one (t.year + 1)
    rw [Valid_mk, toSec_mk]
    simp only [toSec, dayNumber]
    rw [h12] at hd2 ⊢
    omega
  · have hstep := daysBeforeMonth_step (y := t.year) hm1 hm2
    have hpos := daysInMonth_pos t.year (t.month + 1)
    rw [Valid_mk, toSec_mk]
    simp only [toSec, dayNumber]
    omega

theorem hourStep_spec {t : DateTime} (h : Valid t) :
    Valid (hourStep t) ∧ toSec t < toSec (hourStep t) := by
  unfold hourStep
  split_ifs with h23
  · obtain ⟨hm1, hm2, hd1, hd2, hh, hmi, hs, hn⟩ := h
    rw [Valid_mk, toSec_mk]
    simp only [toSec, dayNumber]
    omega
  · exact dayStep_gt h

theorem minuteStep_spec {t : DateTime} (h : Valid t) :
    Valid (minuteStep t) ∧ toSec t < toSec (minuteStep t) := by
  unfold minuteStep
  split_ifs with h59
  · obtain ⟨hm1, hm2, hd1, hd2, hh, hmi, hs, hn⟩ := h
    rw [Valid_mk, toSec_mk]
    simp only [toSec, dayNumber]
    omega
  · exact hourStep_spec h

theorem secondStep_spec {t : DateTime} (h : Valid t) :
    Valid (secondStep t) ∧ toSec (secondStep t) = toSec t + 1 := by
  have hv := h
  obtain ⟨hm1, hm2, hd1, hd2, hh, hmi, hs, hn⟩ := h
  unfold secondStep
  split_ifs with h1 h2 h3
  · show Valid ⟨_, _, _, _, _, _, _⟩ ∧ toSec ⟨_, _, _, _, _, _, _⟩ = _
    rw [Valid_mk, toSec_mk]
    simp only [toSec, dayNumber]
    omega
  · show Valid ⟨_, _, _, _, _, _, _⟩ ∧ toSec ⟨_, _, _, _, _, _, _⟩ = _
    rw [Valid_mk, toSec_mk]
    simp only [toSec, dayNumber]
    omega
  · show Valid ⟨_, _, _, _, _, _, _⟩ ∧ toSec ⟨_, _, _, _, _, _, _⟩ = _
    rw [Valid_mk, toSec_mk]
    simp only [toSec, dayNumber]
    omega
  · obtain ⟨⟨gm1, gm2, gd1, gd2, gh, gmi, gs, -⟩, he⟩ := dayStep_spec hv
    show Valid ⟨_, _, _, _, _, _, _⟩ ∧ toSec ⟨_, _, _, _, _, _, _⟩ = _
    rw [Valid_mk, toSec_mk]
    have ht : toSec (dayStep t) =
        (daysBeforeYear (dayStep t).year + daysBeforeMonth (dayStep t).year
          (dayStep t).month + ((dayStep t).day - 1)) * 86400 +
          (dayStep t).hour * 3600 + (dayStep t).minute * 60 + (dayStep t).sec :=
      rfl
    simp only [toSec, dayNumber] at he ⊢
    omega

theorem secondStep_nsec (t : DateTime) : (secondStep t).nsec = t.nsec := by
  unfold secondStep dayStep
  split_ifs <;> rfl

theorem entryStep_spec {t : DateTime} (h : Valid t) :
    Valid (entryStep t) ∧ toSec (entryStep t) = toSec t + 1 ∧
      (entryStep t).nsec = 0 := by
  have h0 : Valid { t with nsec := 0 } := by
    obtain ⟨hm1, hm2, hd1, hd2, hh, hmi, hs, hn⟩ := h
    exact ⟨hm1, hm2, hd1, hd2, hh, hmi, hs, Nat.zero_le _⟩
  obtain ⟨hv, he⟩ := secondStep_spec h0
  refine ⟨hv, ?_, ?_⟩
  · rw [entryStep, he]
    simp [toSec, dayNumber]
  · rw [entryStep, secondStep_nsec]

/-! ### Search lemmas: the candidate only moves forward, stays below the
horizon, and the supplied fuel is never exhausted. -/

theorem search_found_ge (s : SpecSchedule) (limit : Nat) :
    ∀ fuel t r, Valid t → search s limit fuel t = .found r → toSec t ≤ toSec r := by
  intro fuel
  induction fuel with
  | zero => intro t r _ heq; simp [search] at heq
  | succ fuel ih =>
      intro t r hv heq
      rw [search] at heq
      split_ifs at heq
      all_goals first
        | (cases heq; exact Nat.le_refl _)
        | (cases heq)
        | (obtain ⟨hv', hlt⟩ := monthStart_spec hv
           exact Nat.le_trans (Nat.le_of_lt hlt) (ih _ _ hv' heq))
        | (obtain ⟨hv', hlt⟩ := dayStep_gt hv
           exact Nat.le_trans (Nat.le_of_lt hlt) (ih _ _ hv' heq))
        | (obtain ⟨hv', hlt⟩ := hourStep_spec hv
           exact Nat.le_trans (Nat.le_of_lt hlt) (ih _ _ hv' heq))
        | (obtain ⟨hv', hlt⟩ := minuteStep_spec hv
           exact Nat.le_trans (Nat.le_of_lt hlt) (ih _ _ hv' heq))
        | (obtain ⟨hv', heq1⟩ := secondStep_spec hv
           exact Nat.le_trans (by omega) (ih _ _ hv' heq))

theorem search_found_year (s : SpecSchedule) (limit : Nat) :
    ∀ fuel t r, search s limit fuel t = .found r → r.year < limit := by
  intro fuel
  induction fuel with
  | zero => intro t r heq; simp [search] at heq
  | succ fuel ih =>
      intro t r heq
      rw [search] at heq
      split_ifs at heq with h1
      all_goals first
        | (cases heq; omega)
        | (cases heq)
        | (exact ih _ _ heq)

theorem search_ne_fuelOut (s : SpecSchedule) (limit : Nat) :
    ∀ fuel t, Valid t → 86400 * daysBeforeYear limit - toSec t < fuel →
      search s limit fuel t ≠ .fuelOut := by
  intro fuel
  induction fuel with
  | zero => intro t _ hm; exact absurd hm (Nat.not_lt_zero _)
  | succ fuel ih =>
      intro t hv hm
      rw [search]
      split_ifs with h1
      all_goals first
        | (intro hc; cases hc)
        | (have hy : toSec t < 86400 * daysBeforeYear limit :=
             toSec_lt_limit hv (by omega)
           first
             | (obtain ⟨hv', hlt⟩ := monthStart_spec hv
                exact ih _ hv' (by omega))
             | (obtain ⟨hv', hlt⟩ := dayStep_gt hv
                exact ih _ hv' (by omega))
             | (obtain ⟨hv', hlt⟩ := hourStep_spec hv
                exact ih _ hv' (by omega))
             | (obtain ⟨hv', hlt⟩ := minuteStep_spec hv
                exact ih _ hv' (by omega))
             | (obtain ⟨hv', hlt⟩ := secondStep_spec hv
                exact ih _ hv' (by omega)))

/-! ### Example schedules used as concrete witnesses -/

/-- Bit set with every value in `[lo, hi]` hit by stride `step` set. -/
def bitsRange (lo hi step : Nat) : Nat :=
  (List.range (hi + 1)).foldl
    (fun a i => if lo ≤ i ∧ (i - lo) % step = 0 then a ||| (1 <<< i) else a) 0

/-- The yearly schedule `0 0 0 1 1 *` (midnight of January 1st). -/
def exYearly : SpecSchedule :=
  ⟨1, 1, 1, 2, 2, bitsRange 0 6 1 ||| (1 <<< 63)⟩

/-- The impossible schedule `0 0 0 30 2 *` (February 30th). -/
def exFeb30 : SpecSchedule :=
  ⟨1, 1, 1, 1 <<< 30, 1 <<< 2, bitsRange 0 6 1 ||| (1 <<< 63)⟩

/-! ### Claim theorems for the Next engine -/

/-- C1: for every `SpecSchedule` S and valid instant T, whenever `S.Next T`
does not return the unsatisfiable sentinel (`none`, the Go zero time), the
returned instant is strictly greater than T: `Next` never returns the
instant it was given. -/
theorem next_strictly_greater (s : SpecSchedule) (t r : DateTime)
    (hv : Valid t) (h : s.Next t = some r) : toNano t < toNano r := by
  obtain ⟨hv1, he1, hn1⟩ := entryStep_spec hv
  have hns : t.nsec ≤ 999999999 := hv.2.2.2.2.2.2.2
  unfold SpecSchedule.Next at h
  rcases hse : search s ((entryStep t).year + 4)
      (searchFuel ((entryStep t).year + 4)) (entryStep t) with r' | - | -
  · rw [hse] at h
    simp only [Option.some.injEq] at h
    subst h
    have hge := search_found_ge s ((entryStep t).year + 4)
      (searchFuel ((entryStep t).year + 4)) (entryStep t) r' hv1 hse
    unfold toNano
    omega
  · rw [hse] at h; simp at h
  · rw [hse] at h; simp at h

/-- Witness for C1 at the yearly schedule and probe 2024-06-15T12:00:00. -/
theorem next_strictly_greater_witness :
    toNano ⟨2024, 6, 15, 12, 0, 0, 0⟩ < toNano ⟨2025, 1, 1, 0, 0, 0, 0⟩ :=
  next_strictly_greater exYearly ⟨2024, 6, 15, 12, 0, 0, 0⟩
    ⟨2025, 1, 1, 0, 0, 0, 0⟩ (by decide) (by decide)

/-- C2: the cron day-matching rule.  If neither the day-of-month nor the
day-of-week bit set carries the wildcard marker (`starBit`), a date matches
iff day-of-month matches OR day-of-week matches; if at least one carries
the marker, a date matches iff day-of-month matches AND day-of-week matches
(the starred field having all its value bits set, so the restricted field
alone governs). -/
theorem dayMatches_or_and_rule (s : SpecSchedule) (t : DateTime) :
    (s.Dom.testBit starBit = false ∧ s.Dow.testBit starBit = false →
      (dayMatches s t = true ↔
        (s.Dom.testBit t.day = true ∨ s.Dow.testBit (weekday t) = true))) ∧
    ((s.Dom.testBit starBit = true ∨ s.Dow.testBit starBit = true) →
      (dayMatches s t = true ↔
        (s.Dom.testBit t.day = true ∧ s.Dow.testBit (weekday t) = true))) := by
  constructor
  · rintro ⟨h1, h2⟩
    have hc : (s.Dom.testBit starBit || s.Dow.testBit starBit) = false := by
      simp [h1, h2]
    simp only [dayMatches, hc]
    simp
  · intro h
    have hc : (s.Dom.testBit starBit || s.Dow.testBit starBit) = true := by
      rcases h with h | h <;> simp [h]
    simp only [dayMatches, hc]
    simp

/-- Witness for C2: the OR arm at a schedule restricting both day fields,
and the AND arm at the yearly schedule (starred day-of-week). -/
theorem dayMatches_or_and_rule_witness :
    (dayMatches ⟨0, 0, 0, 1 <<< 15, 0, 1 <<< 3⟩ ⟨2024, 1, 15, 0, 0, 0, 0⟩ = true ↔
      ((1 <<< 15 : Nat).testBit 15 = true ∨
        (1 <<< 3 : Nat).testBit (weekday ⟨2024, 1, 15, 0, 0, 0, 0⟩) = true)) ∧
    (dayMatches exYearly ⟨2024, 6, 15, 12, 0, 0, 0⟩ = true ↔
      (exYearly.Dom.testBit 15 = true ∧
        exYearly.Dow.testBit (weekday ⟨2024, 6, 15, 12, 0, 0, 0⟩) = true)) :=
  ⟨(dayMatches_or_and_rule ⟨0, 0, 0, 1 <<< 15, 0, 1 <<< 3⟩
      ⟨2024, 1, 15, 0, 0, 0, 0⟩).1 ⟨by decide, by decide⟩,
    (dayMatches_or_and_rule exYearly ⟨2024, 6, 15, 12, 0, 0, 0⟩).2
      (Or.inr (by decide))⟩

/-- C3: for every `SpecSchedule` and valid instant the bounded search
terminates: the fuel `Next` supplies is never exhausted, any found instant
lies strictly below the `year + 4` horizon, and `Next` returns the
unsatisfiable sentinel (`none`) exactly when the search ends `unsat` at the
horizon (e.g. for an impossible spec such as Feb 30). -/
theorem next_terminates (s : SpecSchedule) (t : DateTime) (hv : Valid t) :
    search s ((entryStep t).year + 4) (searchFuel ((entryStep t).year + 4))
        (entryStep t) ≠ .fuelOut ∧
    (∀ r, s.Next t = some r → r.year < (entryStep t).year + 4) ∧
    (s.Next t = none ↔
      search s ((entryStep t).year + 4) (searchFuel ((entryStep t).year + 4))
        (entryStep t) = .unsat) := by
  obtain ⟨hv1, he1, hn1⟩ := entryStep_spec hv
  have hne := search_ne_fuelOut s ((entryStep t).year + 4)
    (searchFuel ((entryStep t).year + 4)) (entryStep t) hv1
    (by unfold searchFuel; omega)
  refine ⟨hne, ?_, ?_⟩
  · intro r h
    unfold SpecSchedule.Next at h
    rcases hse : search s ((entryStep t).year + 4)
        (searchFuel ((entryStep t).year + 4)) (entryStep t) with r' | - | -
    · rw [hse] at h
      simp only [Option.some.injEq] at h
      subst h
      exact search_found_year s ((entryStep t).year + 4)
        (searchFuel ((entryStep t).year + 4)) (entryStep t) r' hse
    · rw [hse] at h; simp at h
    · rw [hse] at h; simp at h
  · unfold SpecSchedule.Next
    rcases hse : search s ((entryStep t).year + 4)
        (searchFuel ((entryStep t).year + 4)) (entryStep t) with r' | - | -
    · simp [hse]
    · simp [hse]
    · exact absurd hse hne

/-- Witness for C3 at the impossible Feb-30 schedule. -/
theorem next_terminates_witness :
    search exFeb30 ((entryStep ⟨2024, 1, 1, 0, 0, 0, 0⟩).year + 4)
        (searchFuel ((entryStep ⟨2024, 1, 1, 0, 0, 0, 0⟩).year + 4))
        (entryStep ⟨2024, 1, 1, 0, 0, 0, 0⟩) ≠ .fuelOut ∧
    (∀ r, exFeb30.Next ⟨2024, 1, 1, 0, 0, 0, 0⟩ = some r →
      r.year < (entryStep ⟨2024, 1, 1, 0, 0, 0, 0⟩).year + 4) ∧
    (exFeb30.Next ⟨2024, 1, 1, 0, 0, 0, 0⟩ = none ↔
      search exFeb30 ((entryStep ⟨2024, 1, 1, 0, 0, 0, 0⟩).year + 4)
        (searchFuel ((entryStep ⟨2024, 1, 1, 0, 0, 0, 0⟩).year + 4))
        (entryStep ⟨2024, 1, 1, 0, 0, 0, 0⟩) = .unsat) :=
  next_terminates exFeb30 ⟨2024, 1, 1, 0, 0, 0, 0⟩ (by decide)

/-! ### `@every` durations: `parseDuration`, `parseEvery`,
`ConstantDelaySchedule`

`parseDuration` first tries Go's `time.ParseDuration` and then falls back
to a `^(\d+)([smhd])$` pattern.  Durations are `int64` nanosecond counts;
we use `Int` together with the source's explicit overflow checks against
`2^63`.  Parse failures become `none`. -/

/-- `2^63`, the bound Go's duration parser checks against. -/
def u63 : Nat := 9223372036854775808

/-- Wrap an integer into `int64` two's-complement range (Go's `int64`
multiplication overflows silently). -/
def wrap64 (n : Int) : Int :=
  ((n + 9223372036854775808) % 18446744073709551616) - 9223372036854775808

/-- `leadingInt` from Go `time`: consume leading digits into an
accumulator, erroring out (`none`) on overflow past `2^63`. -/
def leadingInt : List Char → Nat → Option (Nat × List Char)
  | [], x => some (x, [])
  | c :: rest, x =>
      if c.isDigit then
        if x > 922337203685477580 then none
        else
          if x * 10 + (c.toNat - 48) > 9223372036854775808 then none
          else leadingInt rest (x * 10 + (c.toNat - 48))
      else some (x, c :: rest)

/-- `leadingFraction` from Go `time`: consume fractional digits, keeping a
power-of-ten scale; once the accumulator would overflow, further digits are
consumed but ignored. -/
def leadingFraction : List Char → Nat → Nat → Bool → Nat × Nat × List Char
  | [], x, scale, _ => (x, scale, [])
  | c :: rest, x, scale, ovf =>
      if c.isDigit then
        if ovf then leadingFraction rest x scale true
        else if x > 922337203685477580 then leadingFraction rest x scale true
        else
          if x * 10 + (c.toNat - 48) > 9223372036854775808 then
            leadingFraction rest x scale true
          else leadingFraction rest (x * 10 + (c.toNat - 48)) (scale * 10) false
      else (x, scale, c :: rest)

/-- The unit table of Go `time.ParseDuration` in nanoseconds. -/
def unitNs : List Char → Option Nat
  | ['n', 's'] => some 1
  | ['u', 's'] => some 1000
  | ['µ', 's'] => some 1000
  | ['μ', 's'] => some 1000
  | ['m', 's'] => some 1000000
  | ['s'] => some 1000000000
  | ['m'] => some 60000000000
  | ['h'] => some 3600000000000
  | _ => none

/-- Take the unit token: characters up to the next digit or dot. -/
def takeUnit : List Char → List Char × List Char
  | [] => ([], [])
  | c :: rest =>
      if c = '.' ∨ c.isDigit then ([], c :: rest)
      else
        match takeUnit rest with
        | (u, r) => (c :: u, r)

/-- One pass of `time.ParseDuration`'s main loop per `(\d*(\.\d*)?unit)`
group, accumulating nanoseconds with Go's overflow checks.  Go computes
the fractional contribution as `uint64(float64(f) * (float64(unit)/scale))`;
with power-of-ten scales this is modelled by the exact floor
`f * unit / scale`.  The fuel is at least the input length plus one and
cannot run out, since every successful pass consumes at least one
character. -/
def durLoop : Nat → List Char → Nat → Option Nat
  | _, [], d => some d
  | 0, _ :: _, _ => none
  | fuel + 1, c :: cs, d =>
      if ¬(c = '.' ∨ c.isDigit) then none
      else
        match leadingInt (c :: cs) 0 with
        | none => none
        | some (v, s1) =>
            let pre := s1.length != (c :: cs).length
            match
              (match s1 with
                | '.' :: s1' =>
                    match leadingFraction s1' 0 1 false with
                    | (f, scale, rem) => (f, scale, rem, rem.length != s1'.length)
                | _ => (0, 1, s1, false)) with
            | (f, scale, s2, post) =>
              if !pre && !post then none
              else
                match takeUnit s2 with
                | ([], _) => none
                | (u, s3) =>
                    match unitNs u with
                    | none => none
                    | some unit =>
                        if v > u63 / unit then none
                        else
                          let v2 := if f > 0 then v * unit + f * unit / scale
                            else v * unit
                          if f > 0 ∧ v2 > u63 then none
                          else if d + v2 > u63 then none
                          else durLoop fuel s3 (d + v2)

/-- Go's `time.ParseDuration`: optional sign, `"0"`, then one or more
number-unit groups; `none` on any malformed input or overflow. -/
def goParseDuration (s : List Char) : Option Int :=
  match
    (match s with
      | '-' :: rest => (true, rest)
      | '+' :: rest => (false, rest)
      | _ => (false, s)) with
  | (neg, s1) =>
    if s1 = ['0'] then some 0
    else if s1 = [] then none
    else
      match durLoop (s1.length + 1) s1 0 with
      | none => none
      | some d =>
          if neg then some (-(d : Int))
          else if d > 9223372036854775807 then none
          else some (d : Int)

/-- Digits to a number (the value `strconv.Atoi` computes). -/
def natFromDigits (cs : List Char) : Nat :=
  cs.foldl (fun a c => a * 10 + (c.toNat - 48)) 0

/-- The repository's `parseDuration`: try `time.ParseDuration` first, then
the `^(\d+)([smhd])$` shorthand, where `Atoi` fails beyond `int64` range
and the unit multiplication is Go's wrapping `int64` multiply. -/
def parseDuration (s : List Char) : Option Int :=
  match goParseDuration s with
  | some d => some d
  | none =>
      match s.getLast? with
      | none => none
      | some u =>
          if s.dropLast ≠ [] ∧ s.dropLast.all Char.isDigit ∧
              (u = 's' ∨ u = 'm' ∨ u = 'h' ∨ u = 'd') then
            if natFromDigits s.dropLast > 9223372036854775807 then none
            else
              some (wrap64 (natFromDigits s.dropLast *
                (if u = 's' then 1000000000
                 else if u = 'm' then 60000000000
                 else if u = 'h' then 3600000000000
                 else 86400000000000)))
          else none

/-- `ConstantDelaySchedule` (the spec's `FixedDelaySchedule`): a fixed
nanosecond delay.  (The `Location` field only reprojects the instant and is
omitted as before.) -/
structure ConstantDelaySchedule where
  Delay : Int
deriving DecidableEq, Repr

/-- `ConstantDelaySchedule.Next`: adds the delay to the reference instant.
`time.Time.Add` is plain addition on the absolute nanosecond timeline, so
instants are modelled by their nanosecond coordinate. -/
def ConstantDelaySchedule.Next (sched : ConstantDelaySchedule) (t : Int) : Int :=
  t + sched.Delay

/-- `Parser.parseEvery`: parse the duration text after `@every `, rejecting
non-positive durations. -/
def parseEvery (spec : List Char) : Option ConstantDelaySchedule :=
  match parseDuration spec with
  | none => none
  | some duration =>
      if duration ≤ 0 then none
      else some ⟨duration⟩

/-! ### Claim theorems for `@every` parsing -/

/-- C5 counterexample: `"0s"` is valid duration text (it parses to the
duration 0), yet `@every 0s` does not produce a schedule — parsing
`@every <duration>` does not succeed exactly when the duration text is
valid. -/
theorem parseEvery_counterexample :
    parseDuration ("0s".toList) = some 0 ∧ parseEvery ("0s".toList) = none := by
  decide

/-- C5 (amended): parsing `@every <duration>` succeeds exactly when the
duration text is valid AND the parsed duration is strictly positive; on
success the produced `ConstantDelaySchedule`'s `next(after)` equals
`after + duration` for every reference instant, with no calendar
alignment. -/
theorem parseEvery_ok_iff (spec : List Char) :
    ((∃ sched, parseEvery spec = some sched) ↔
      (∃ d, parseDuration spec = some d ∧ 0 < d)) ∧
    (∀ sched, parseEvery spec = some sched →
      parseDuration spec = some sched.Delay ∧ 0 < sched.Delay ∧
        ∀ t : Int, sched.Next t = t + sched.Delay) := by
  rcases hd : parseDuration spec with - | d
  · have he : parseEvery spec = none := by unfold parseEvery; rw [hd]
    refine ⟨?_, ?_⟩ <;> simp [he, hd]
  · have he : parseEvery spec = if d ≤ 0 then none else some ⟨d⟩ := by
      unfold parseEvery; rw [hd]
    by_cases hpos : d ≤ 0
    · rw [if_pos hpos] at he
      refine ⟨?_, ?_⟩ <;> simp [he, hd]
      omega
    · rw [if_neg hpos] at he
      refine ⟨⟨fun _ => ⟨d, rfl, by omega⟩, fun _ => ⟨⟨d⟩, he⟩⟩, ?_⟩
      rintro sched hs
      rw [he, Option.some.injEq] at hs
      subst hs
      exact ⟨rfl, show (0 : Int) < d by omega, fun t => rfl⟩

/-- Witness for amended C5 at `@every 5s`. -/
theorem parseEvery_ok_iff_witness :
    parseDuration ("5s".toList) =
        some (ConstantDelaySchedule.mk 5000000000).Delay ∧
      0 < (ConstantDelaySchedule.mk 5000000000).Delay ∧
      ∀ t : Int, (ConstantDelaySchedule.mk 5000000000).Next t =
        t + (ConstantDelaySchedule.mk 5000000000).Delay :=
  (parseEvery_ok_iff ("5s".toList)).2 ⟨5000000000⟩ (by decide)

/-- C10: `@every` with a syntactically valid but zero or negative duration
(`@every 0s`, `@every -5m`) fails rather than producing a schedule. -/
theorem parseEvery_rejects_nonpositive :
    parseDuration ("0s".toList) = some 0 ∧
    parseDuration ("-5m".toList) = some (-300000000000) ∧
    parseEvery ("0s".toList) = none ∧
    parseEvery ("-5m".toList) = none := by
  decide

/-! ### Cron field parsing: `parseCronFields` with its field grammar

`parseCronFields` itself is in the source; the helpers it calls
(`normalizeFields`, `getField`, the `places` order) live in a file that is
not part of the corpus and are modelled from the spec below. -/

/-- Field bounds plus name table, as the parser package's `bounds`. -/
structure FieldBounds where
  min : Nat
  max : Nat
  names : List (List Char × Nat)

/-- Bounds for the seconds field. -/
def seconds : FieldBounds := ⟨0, 59, []⟩

/-- Bounds for the minutes field. -/
def minutes : FieldBounds := ⟨0, 59, []⟩

/-- Bounds for the hours field. -/
def hours : FieldBounds := ⟨0, 23, []⟩

/-- Bounds for the day-of-month field. -/
def dom : FieldBounds := ⟨1, 31, []⟩

/-- Bounds for the month field, with three-letter names. -/
def months : FieldBounds :=
  ⟨1, 12,
    [("jan".toList, 1), ("feb".toList, 2), ("mar".toList, 3),
     ("apr".toList, 4), ("may".toList, 5), ("jun".toList, 6),
     ("jul".toList, 7), ("aug".toList, 8), ("sep".toList, 9),
     ("oct".toList, 10), ("nov".toList, 11), ("dec".toList, 12)]⟩

/-- Bounds for the day-of-week field, with three-letter names. -/
def dow : FieldBounds :=
  ⟨0, 6,
    [("sun".toList, 0), ("mon".toList, 1), ("tue".toList, 2),
     ("wed".toList, 3), ("thu".toList, 4), ("fri".toList, 5),
     ("sat".toList, 6)]⟩

/-- Split a character list on a separator (Go `strings.Split`). -/
def splitOnChar (sep : Char) : List Char → List (List Char)
  | [] => [[]]
  | c :: rest =>
      if c = sep then [] :: splitOnChar sep rest
      else
        match splitOnChar sep rest with
        | [] => [[c]]
        | g :: gs => (c :: g) :: gs

/-- Whitespace split dropping empty groups (Go `strings.Fields`). -/
def fieldsOf : List Char → List (List Char)
  | [] => []
  | c :: rest =>
      if c = ' ' ∨ c = '\t' then fieldsOf rest
      else
        match fieldsOf rest with
        | g :: gs =>
            match rest with
            | r :: _ => if r = ' ' ∨ r = '\t' then [c] :: g :: gs
                else (c :: g) :: gs
            | [] => (c :: g) :: gs
        | [] => [[c]]

/-- A non-empty all-digit token, as a number. -/
def parseNum (cs : List Char) : Option Nat :=
  if cs ≠ [] ∧ cs.all Char.isDigit then some (natFromDigits cs) else none

/-- Look a token up in a field's name table. -/
def lookupName : List (List Char × Nat) → List Char → Option Nat
  | [], _ => none
  | (k, v) :: rest, cs => if cs = k then some v else lookupName rest cs

/-- A single value of a field: a number or a three-letter name. -/
def parseValue (b : FieldBounds) (cs : List Char) : Option Nat :=
  match parseNum cs with
  | some n => some n
  | none => lookupName b.names cs

/-- Modelled from the spec: one comma-term of a cron field (`getField`'s
range parser is not in the corpus).  Grammar per §4.1/§6: `*`, `*/n`,
`a`, `a-b`, `a-b/n`, `a/n` (a single value with a step runs to the field
maximum), values numeric or named, all values within the field's bounds,
step positive.  A bare `*` (no step) additionally sets bit 63, the
wildcard marker `starBit`. -/
def getRange (expr : List Char) (b : FieldBounds) : Option Nat :=
  match splitOnChar '/' expr with
  | [r] =>
      (match splitOnChar '-' r with
        | [lo] =>
            if lo = ['*'] then some (bitsRange b.min b.max 1 ||| (1 <<< 63))
            else
              match parseValue b lo with
              | none => none
              | some v =>
                  if b.min ≤ v ∧ v ≤ b.max then some (1 <<< v) else none
        | [lo, hi] =>
            match parseValue b lo, parseValue b hi with
            | some v, some w =>
                if b.min ≤ v ∧ v ≤ w ∧ w ≤ b.max then some (bitsRange v w 1)
                else none
            | _, _ => none
        | _ => none)
  | [r, st] =>
      (match parseNum st with
        | none => none
        | some step =>
            if step = 0 then none
            else
              match splitOnChar '-' r with
              | [lo] =>
                  if lo = ['*'] then some (bitsRange b.min b.max step)
                  else
                    match parseValue b lo with
                    | none => none
                    | some v =>
                        if b.min ≤ v ∧ v ≤ b.max then
                          some (bitsRange v b.max step)
                        else none
              | [lo, hi] =>
                  match parseValue b lo, parseValue b hi with
                  | some v, some w =>
                      if b.min ≤ v ∧ v ≤ w ∧ w ≤ b.max then
                        some (bitsRange v w step)
                      else none
                  | _, _ => none
              | _ => none)
  | _ => none

/-- Modelled from the spec: `getField` (not in the corpus) parses a full
cron field as a comma-separated list of ranges, OR-ing the bit sets. -/
def getField (expr : List Char) (b : FieldBounds) : Option Nat :=
  (splitOnChar ',' expr).foldl
    (fun acc term => acc.bind fun a => (getRange term b).map fun r => a ||| r)
    (some 0)

/-- Modelled from the spec: `normalizeFields` (not in the corpus) for the
scheduler's six-field parser configuration — six fields pass through, a
five-field spec gains an implicit `"0"` seconds field, any other count is
a field-count mismatch. -/
def normalizeFields (fields : List (List Char)) : Option (List (List Char)) :=
  if fields.length = 6 then some fields
  else if fields.length = 5 then some (['0'] :: fields)
  else none

/-- `Parser.parseCronFields`: split the spec into fields, normalize, and
parse each field against its bounds in `places` order
(second, minute, hour, day-of-month, month, day-of-week). -/
def parseCronFields (spec : List Char) : Option SpecSchedule :=
  match fieldsOf spec with
  | [] => none
  | fields =>
      match normalizeFields fields with
      | some [sc, mi, hr, dm, mo, dw] =>
          (getField sc seconds).bind fun second =>
          (getField mi minutes).bind fun minute =>
          (getField hr hours).bind fun hour =>
          (getField dm dom).bind fun dayofmonth =>
          (getField mo months).bind fun month =>
          (getField dw dow).map fun dayofweek =>
          ⟨second, minute, hour, dayofmonth, month, dayofweek⟩
      | _ => none

/-- C4: `Next` reproduces the spec's worked examples: `*/5 * * * * *`
advances 2024-01-01T00:00:02 to 2024-01-01T00:00:05, and the yearly
`0 0 0 1 1 *` advances 2024-06-15T12:00:00 to 2025-01-01T00:00:00. -/
theorem next_worked_examples :
    (parseCronFields ("*/5 * * * * *".toList)).map
        (fun s => s.Next ⟨2024, 1, 1, 0, 0, 2, 0⟩) =
      some (some ⟨2024, 1, 1, 0, 0, 5, 0⟩) ∧
    (parseCronFields ("0 0 0 1 1 *".toList)).map
        (fun s => s.Next ⟨2024, 6, 15, 12, 0, 0, 0⟩) =
      some (some ⟨2025, 1, 1, 0, 0, 0, 0⟩) := by
  decide

/-! ### The LRU expression cache

Embeds `parserCache`, `updateAccessOrder` and the cache manipulation in
`parseWithCache` (cache.go).  Each parser configuration owns one such
cache; `parseWithCache`'s lock-protected sections are modelled as atomic
steps of a sequential transition system (the documented benign promotion
race re-checks existence under the write lock, which in the sequential
model always succeeds).  The Go `map[string]Schedule` becomes an
association list with unique keys; the schedule type stays abstract. -/

/-- The cache capacity bound `maxCacheSize`. -/
def maxCacheSize : Nat := 1000

/-- `parserCache`: the expression map plus the explicit LRU key order. -/
structure CacheState (α : Type) where
  cache : List (String × α)
  accessOrder : List String

/-- Go map read `cache[spec]`. -/
def mapLookup (m : List (String × α)) (k : String) : Option α :=
  m.lookup k

/-- Go `delete(cache, k)`. -/
def mapDelete (m : List (String × α)) (k : String) : List (String × α) :=
  m.filter (fun p => p.1 != k)

/-- Go map assignment `cache[k] = v`. -/
def mapInsert (m : List (String × α)) (k : String) (v : α) : List (String × α) :=
  if m.any (fun p => p.1 == k) then
    m.map (fun p => if p.1 == k then (k, v) else p)
  else m ++ [(k, v)]

/-- `parserCache.updateAccessOrder`: scan for the key's position (position
0 if absent), remove that slot, and append the key as most recent. -/
def updateAccessOrder (order : List String) (spec : String) : List String :=
  (order.take (if spec ∈ order then order.indexOf spec else 0) ++
    order.drop ((if spec ∈ order then order.indexOf spec else 0) + 1)) ++ [spec]

/-- Outcome of `parseNoCache` for a missed expression. -/
inductive ParseOutcome (α : Type) where
  | ok (a : α)
  | failed

/-- One `parseWithCache` call for expression `spec`: on a hit, promote the
key in the access order; on a miss, return on parse failure, otherwise
evict the head of the access order when at capacity and insert. -/
def parseWithCacheStep (st : CacheState α) (spec : String) (res : ParseOutcome α) :
    CacheState α :=
  match mapLookup st.cache spec with
  | some _ => { st with accessOrder := updateAccessOrder st.accessOrder spec }
  | none =>
      match res with
      | .failed => st
      | .ok v =>
          match
            (if st.cache.length ≥ maxCacheSize then
              match st.accessOrder with
              | [] => st
              | oldest :: restOrder =>
                  { cache := mapDelete st.cache oldest, accessOrder := restOrder }
            else st) with
          | st1 =>
            { cache := mapInsert st1.cache spec v,
              accessOrder := st1.accessOrder ++ [spec] }

/-- A whole history of cache calls, from the empty cache. -/
def runCache (events : List (String × ParseOutcome α)) : CacheState α :=
  events.foldl (fun st e => parseWithCacheStep st e.1 e.2) ⟨[], []⟩

/-- Cache invariant: the access order has no duplicates and is a
permutation of the map's key set. -/
def CacheInv (st : CacheState α) : Prop :=
  st.accessOrder.Nodup ∧ (st.cache.map Prod.fst).Perm st.accessOrder

theorem updateAccessOrder_perm {order : List String} {spec : String}
    (h : spec ∈ order) (hnd : order.Nodup) :
    (updateAccessOrder order spec).Perm order ∧
      (updateAccessOrder order spec).Nodup := by
  unfold updateAccessOrder
  rw [if_pos h, ← List.eraseIdx_eq_take_drop_succ, List.eraseIdx_indexOf_eq_erase]
  have hp : (order.erase spec ++ [spec]).Perm (spec :: order.erase spec) :=
    List.perm_append_singleton spec (order.erase spec)
  have hc : (spec :: order.erase spec).Perm order :=
    (List.perm_cons_erase h).symm
  refine ⟨hp.trans hc, ?_⟩
  refine hp.symm.nodup ?_
  refine List.Nodup.cons ?_ (hnd.erase spec)
  intro hmem
  exact absurd ((List.Nodup.mem_erase_iff hnd).mp hmem).1 (by simp)

theorem mapLookup_isSome_iff {m : List (String × α)} {k : String} :
    (mapLookup m k).isSome ↔ k ∈ m.map Prod.fst := by
  induction m with
  | nil => simp [mapLookup]
  | cons p rest ih =>
      simp only [mapLookup, List.lookup, List.map_cons, List.mem_cons]
      by_cases hk : k = p.1
      · simp [hk]
      · have hb : (k == p.1) = false := by simpa using hk
        rw [hb]
        have hrest : (List.lookup k rest).isSome = true ↔
            k ∈ List.map Prod.fst rest := ih
        simp [hrest, hk]

theorem mapDelete_keys (m : List (String × α)) (k : String) :
    (mapDelete m k).map Prod.fst = (m.map Prod.fst).filter (fun s => s != k) := by
  induction m with
  | nil => rfl
  | cons p rest ih =>
      by_cases hk : p.1 = k <;> simp [mapDelete, hk] <;>
        simpa [mapDelete] using ih

theorem mapInsert_keys_of_absent {m : List (String × α)} {k : String}
    (h : k ∉ m.map Prod.fst) (v : α) :
    (mapInsert m k v).map Prod.fst = m.map Prod.fst ++ [k] := by
  have hany : m.any (fun p => p.1 == k) = false := by
    rw [List.any_eq_false]
    intro p hp
    simp only [beq_iff_eq]
    intro he
    exact h (he ▸ List.mem_map_of_mem Prod.fst hp)
  unfold mapInsert
  rw [hany]
  simp

theorem nodup_append_singleton {l : List String} {a : String}
    (h : a ∉ l) (hnd : l.Nodup) : (l ++ [a]).Nodup :=
  (List.perm_append_singleton a l).symm.nodup (List.nodup_cons.mpr ⟨h, hnd⟩)

theorem step_preserves {α : Type} {st : CacheState α} (spec : String)
    (res : ParseOutcome α) (hinv : CacheInv st)
    (hle : st.cache.length ≤ maxCacheSize) :
    CacheInv (parseWithCacheStep st spec res) ∧
      (parseWithCacheStep st spec res).cache.length ≤ maxCacheSize := by
  obtain ⟨hnd, hperm⟩ := hinv
  cases hl : mapLookup st.cache spec with
  | some v =>
      have hres : parseWithCacheStep st spec res =
          { st with accessOrder := updateAccessOrder st.accessOrder spec } := by
        unfold parseWithCacheStep
        rw [hl]
      rw [hres]
      have hmemk : spec ∈ st.cache.map Prod.fst :=
        mapLookup_isSome_iff.mp (by rw [hl]; rfl)
      have hmemo : spec ∈ st.accessOrder := hperm.mem_iff.mp hmemk
      obtain ⟨hp, hn⟩ := updateAccessOrder_perm hmemo hnd
      exact ⟨⟨hn, hperm.trans hp.symm⟩, hle⟩
  | none =>
      cases res with
      | failed =>
          have hres : parseWithCacheStep st spec .failed = st := by
            unfold parseWithCacheStep
            rw [hl]
          rw [hres]
          exact ⟨⟨hnd, hperm⟩, hle⟩
      | ok v =>
          have hns : spec ∉ st.cache.map Prod.fst := by
            rw [← mapLookup_isSome_iff, hl]; simp
          have hnso : spec ∉ st.accessOrder := fun hc =>
            hns (hperm.mem_iff.mpr hc)
          by_cases hcap : st.cache.length ≥ maxCacheSize
          · have hlen : st.accessOrder.length = st.cache.length := by
              have := hperm.length_eq
              simpa [List.length_map] using this.symm
            cases horder : st.accessOrder with
            | nil =>
                exfalso
                rw [horder] at hlen
                simp [maxCacheSize] at hlen hcap
                omega
            | cons oldest rest =>
                have hres : parseWithCacheStep st spec (.ok v) =
                    { cache := mapInsert (mapDelete st.cache oldest) spec v,
                      accessOrder := rest ++ [spec] } := by
                  unfold parseWithCacheStep
                  rw [hl, if_pos hcap, horder]
                rw [hres]
                obtain ⟨hno, hndr⟩ := List.nodup_cons.mp (horder ▸ hnd)
                have hkeys1 : (mapDelete st.cache oldest).map Prod.fst =
                    (st.cache.map Prod.fst).filter (fun s => s != oldest) :=
                  mapDelete_keys st.cache oldest
                have hpf : ((st.cache.map Prod.fst).filter
                    (fun s => s != oldest)).Perm
                      ((oldest :: rest).filter (fun s => s != oldest)) :=
                  (horder ▸ hperm).filter _
                have hfr : (oldest :: rest).filter (fun s => s != oldest) = rest := by
                  rw [List.filter_cons]
                  simp only [bne_self_eq_false, Bool.false_eq_true, if_false]
                  have hne : ∀ a ∈ rest, a ≠ oldest := fun a ha he => hno (he ▸ ha)
                  exact List.filter_eq_self.mpr fun a ha => by simpa using hne a ha
                have hperm1 : ((mapDelete st.cache oldest).map Prod.fst).Perm rest := by
                  rw [hkeys1]
                  exact hfr ▸ hpf
                have hns1 : spec ∉ (mapDelete st.cache oldest).map Prod.fst := by
                  rw [hkeys1]
                  intro hc
                  exact hns (List.mem_of_mem_filter hc)
                have hkeys2 := mapInsert_keys_of_absent hns1 v
                have hnsr : spec ∉ rest := fun hc =>
                  hnso (horder ▸ List.mem_cons_of_mem oldest hc)
                constructor
                · refine ⟨nodup_append_singleton hnsr hndr, ?_⟩
                  rw [hkeys2]
                  exact hperm1.append_right [spec]
                · have h1 : (mapInsert (mapDelete st.cache oldest) spec v).length =
                      rest.length + 1 := by
                    have := congrArg List.length hkeys2
                    simpa [List.length_map, List.length_append,
                      hperm1.length_eq] using this
                  have h2 : rest.length + 1 = st.cache.length := by
                    rw [horder] at hlen
                    simpa using hlen
                  simp only [h1]
                  omega
          · have hres : parseWithCacheStep st spec (.ok v) =
                { cache := mapInsert st.cache spec v,
                  accessOrder := st.accessOrder ++ [spec] } := by
              unfold parseWithCacheStep
              rw [hl, if_neg hcap]
            rw [hres]
            have hkeys2 := mapInsert_keys_of_absent hns v
            constructor
            · refine ⟨nodup_append_singleton hnso hnd, ?_⟩
              rw [hkeys2]
              exact hperm.append_right [spec]
            · have h1 : (mapInsert st.cache spec v).length =
                  st.cache.length + 1 := by
                have := congrArg List.length hkeys2
                simpa [List.length_map, List.length_append] using this
              simp only [h1]
              omega

theorem runCache_inv {α : Type} (events : List (String × ParseOutcome α)) :
    ∀ st : CacheState α, CacheInv st → st.cache.length ≤ maxCacheSize →
      CacheInv (events.foldl (fun st e => parseWithCacheStep st e.1 e.2) st) ∧
        (events.foldl (fun st e => parseWithCacheStep st e.1 e.2) st).cache.length ≤
          maxCacheSize := by
  induction events with
  | nil => intro st h1 h2; exact ⟨h1, h2⟩
  | cons e rest ih =>
      intro st h1 h2
      obtain ⟨h1', h2'⟩ := step_preserves e.1 e.2 h1 h2
      exact ih _ h1' h2'

/-- C6: for every sequence of cache lookups and inserts the cache never
exceeds its fixed 1000-entry capacity; an insert at capacity keeps the size
at capacity and replaces exactly the key at the head of the access-order
list (the least-recently-used entry) with the new key; and the access
order is updated on every hit (promoted, ending with the key) and on every
insert (the new key appended as most recent). -/
theorem cache_lru_bound (α : Type) :
    (∀ events : List (String × ParseOutcome α),
      CacheInv (runCache events) ∧
        (runCache events).cache.length ≤ maxCacheSize) ∧
    (∀ (st : CacheState α) (spec : String) (v : α), CacheInv st →
      st.cache.length = maxCacheSize → mapLookup st.cache spec = none →
      (parseWithCacheStep st spec (.ok v)).cache.length = maxCacheSize ∧
      ∀ k, k ∈ (parseWithCacheStep st spec (.ok v)).cache.map Prod.fst ↔
        ((k ∈ st.cache.map Prod.fst ∧ k ≠ st.accessOrder.headD "") ∨ k = spec)) ∧
    (∀ (st : CacheState α) (spec : String) (res : ParseOutcome α), CacheInv st →
      (mapLookup st.cache spec).isSome →
      (parseWithCacheStep st spec res).accessOrder.Perm st.accessOrder ∧
      ∃ pre, (parseWithCacheStep st spec res).accessOrder = pre ++ [spec]) ∧
    (∀ (st : CacheState α) (spec : String) (v : α),
      mapLookup st.cache spec = none →
      ∃ pre, (parseWithCacheStep st spec (.ok v)).accessOrder = pre ++ [spec]) := by
  refine ⟨?_, ?_, ?_, ?_⟩
  · intro events
    exact runCache_inv events ⟨[], []⟩ ⟨List.nodup_nil, List.Perm.refl _⟩
      (by simp [maxCacheSize])
  · intro st spec v hinv hcap hl
    obtain ⟨hnd, hperm⟩ := hinv
    have hlen : st.accessOrder.length = st.cache.length := by
      have := hperm.length_eq
      simpa [List.length_map] using this.symm
    have hns : spec ∉ st.cache.map Prod.fst := by
      rw [← mapLookup_isSome_iff, hl]; simp
    cases horder : st.accessOrder with
    | nil =>
        exfalso
        rw [horder] at hlen
        simp [maxCacheSize] at hlen hcap
        omega
    | cons oldest rest =>
        have hres : parseWithCacheStep st spec (.ok v) =
            { cache := mapInsert (mapDelete st.cache oldest) spec v,
              accessOrder := rest ++ [spec] } := by
          unfold parseWithCacheStep
          rw [hl, if_pos (by omega), horder]
        obtain ⟨hno, hndr⟩ := List.nodup_cons.mp (horder ▸ hnd)
        have hkeys1 : (mapDelete st.cache oldest).map Prod.fst =
            (st.cache.map Prod.fst).filter (fun s => s != oldest) :=
          mapDelete_keys st.cache oldest
        have hns1 : spec ∉ (mapDelete st.cache oldest).map Prod.fst := by
          rw [hkeys1]
          intro hc
          exact hns (List.mem_of_mem_filter hc)
        have hkeys2 := mapInsert_keys_of_absent hns1 v
        have hpf : ((st.cache.map Prod.fst).filter
            (fun s => s != oldest)).Perm
              ((oldest :: rest).filter (fun s => s != oldest)) :=
          (horder ▸ hperm).filter _
        have hfr : (oldest :: rest).filter (fun s => s != oldest) = rest := by
          rw [List.filter_cons]
          simp only [bne_self_eq_false, Bool.false_eq_true, if_false]
          have hne : ∀ a ∈ rest, a ≠ oldest := fun a ha he => hno (he ▸ ha)
          exact List.filter_eq_self.mpr fun a ha => by simpa using hne a ha
        have hperm1 : ((mapDelete st.cache oldest).map Prod.fst).Perm rest := by
          rw [hkeys1]
          exact hfr ▸ hpf
        constructor
        · rw [hres]
          have h1 : (mapInsert (mapDelete st.cache oldest) spec v).length =
              rest.length + 1 := by
            have := congrArg List.length hkeys2
            simpa [List.length_map, List.length_append,
              hperm1.length_eq] using this
          have h2 : rest.length + 1 = st.cache.length := by
            rw [horder] at hlen
            simpa using hlen
          simp only [h1]
          omega
        · intro k
          rw [hres]
          show k ∈ (mapInsert (mapDelete st.cache oldest) spec v).map Prod.fst ↔ _
          rw [hkeys2, hkeys1]
          simp only [List.mem_append, List.mem_filter, List.mem_singleton,
            List.headD_cons, bne_iff_ne, ne_eq, decide_eq_true_eq]
  · intro st spec res hinv hl
    obtain ⟨hnd, hperm⟩ := hinv
    cases hlk : mapLookup st.cache spec with
    | none => rw [hlk] at hl; simp at hl
    | some v =>
        have hres : parseWithCacheStep st spec res =
            { st with accessOrder := updateAccessOrder st.accessOrder spec } := by
          unfold parseWithCacheStep
          rw [hlk]
        have hmemk : spec ∈ st.cache.map Prod.fst :=
          mapLookup_isSome_iff.mp (by rw [hlk]; rfl)
        have hmemo : spec ∈ st.accessOrder := hperm.mem_iff.mp hmemk
        obtain ⟨hp, -⟩ := updateAccessOrder_perm hmemo hnd
        rw [hres]
        exact ⟨hp, _, rfl⟩
  · intro st spec v hl
    unfold parseWithCacheStep
    rw [hl]
    exact ⟨_, rfl⟩

/-! ### A concrete at-capacity cache for the C6 witness -/

theorem char_toNat_ofNat {a : Nat} (h : a < 55296) : (Char.ofNat a).toNat = a := by
  unfold Char.ofNat
  rw [dif_pos (Or.inl h : Nat.isValidChar a)]
  rfl

/-- Three-decimal-digit key for index `i < 1000`. -/
def keyOfNat (i : Nat) : String :=
  ⟨[Char.ofNat (48 + i / 100), Char.ofNat (48 + i % 100 / 10),
    Char.ofNat (48 + i % 10)]⟩

/-- 1000 distinct three-digit keys. -/
def fullKeys : List String := (List.range maxCacheSize).map keyOfNat

/-- A cache filled to capacity with 1000 distinct keys. -/
def fullCache : CacheState Nat :=
  ⟨fullKeys.map (fun k => (k, 0)), fullKeys⟩

theorem keyOfNat_inj {i j : Nat} (hi : i < 1000) (hj : j < 1000)
    (h : keyOfNat i = keyOfNat j) : i = j := by
  have hd := congrArg String.data h
  unfold keyOfNat at hd
  simp only [List.cons.injEq, and_true] at hd
  obtain ⟨h1, h2, h3⟩ := hd
  have e1 := congrArg Char.toNat h1
  have e2 := congrArg Char.toNat h2
  have e3 := congrArg Char.toNat h3
  rw [char_toNat_ofNat (by omega), char_toNat_ofNat (by omega)] at e1 e2 e3
  omega

set_option maxRecDepth 100000 in
theorem fullCache_keys : fullCache.cache.map Prod.fst = fullKeys := by
  show (fullKeys.map (fun k => (k, (0 : Nat)))).map Prod.fst = fullKeys
  rw [List.map_map,
    show (Prod.fst ∘ fun k : String => (k, (0 : Nat))) = id from rfl,
    List.map_id]

theorem fullKeys_nodup : fullKeys.Nodup := by
  unfold fullKeys
  refine List.Nodup.map_on ?_ (List.nodup_range maxCacheSize)
  intro i hi j hj h
  exact keyOfNat_inj
    (by simpa [maxCacheSize] using List.mem_range.mp hi)
    (by simpa [maxCacheSize] using List.mem_range.mp hj) h

set_option maxRecDepth 100000 in
theorem fullCache_inv : CacheInv fullCache := by
  constructor
  · exact fullKeys_nodup
  · exact fullCache_keys ▸ List.Perm.refl _

set_option maxRecDepth 100000 in
theorem fullCache_len : fullCache.cache.length = maxCacheSize := by
  show (fullKeys.map (fun k => (k, (0 : Nat)))).length = maxCacheSize
  rw [List.length_map]
  unfold fullKeys
  rw [List.length_map, List.length_range]

set_option maxRecDepth 100000 in
theorem fullCache_lookup_new : mapLookup fullCache.cache "new" = none := by
  have hmem : "new" ∉ fullCache.cache.map Prod.fst := by
    rw [fullCache_keys]
    unfold fullKeys
    intro hc
    obtain ⟨i, hi, he⟩ := List.mem_map.mp hc
    have hi' : i < 1000 := by simpa [maxCacheSize] using List.mem_range.mp hi
    have hd := congrArg String.data he
    unfold keyOfNat at hd
    simp only [List.cons.injEq, and_true] at hd
    obtain ⟨h1, -⟩ := hd
    have e1 := congrArg Char.toNat h1
    rw [char_toNat_ofNat (by omega)] at e1
    have hn : ('n' : Char).toNat = 110 := rfl
    rw [hn] at e1
    omega
  exact Option.not_isSome_iff_eq_none.mp
    (fun hs => hmem (mapLookup_isSome_iff.mp hs))

/-- Witness for C6: the capacity bound on a small history, the eviction
behaviour at the full 1000-entry cache, and the order updates on a hit and
on an insert. -/
theorem cache_lru_bound_witness :
    (CacheInv (runCache ([("a", .ok 0), ("b", .ok 1), ("a", .ok 2)] :
        List (String × ParseOutcome Nat))) ∧
      (runCache ([("a", .ok 0), ("b", .ok 1), ("a", .ok 2)] :
        List (String × ParseOutcome Nat))).cache.length ≤ maxCacheSize) ∧
    ((parseWithCacheStep fullCache "new" (.ok 5)).cache.length = maxCacheSize ∧
      ∀ k, k ∈ (parseWithCacheStep fullCache "new" (.ok 5)).cache.map Prod.fst ↔
        ((k ∈ fullCache.cache.map Prod.fst ∧
            k ≠ fullCache.accessOrder.headD "") ∨ k = "new")) ∧
    ((parseWithCacheStep (⟨[("a", 7)], ["a"]⟩ : CacheState Nat) "a"
        (.ok 9)).accessOrder.Perm ["a"] ∧
      ∃ pre, (parseWithCacheStep (⟨[("a", 7)], ["a"]⟩ : CacheState Nat) "a"
        (.ok 9)).accessOrder = pre ++ ["a"]) ∧
    (∃ pre, (parseWithCacheStep (⟨[("a", 7)], ["a"]⟩ : CacheState Nat) "b"
      (.ok 9)).accessOrder = pre ++ ["b"]) := by
  refine ⟨(cache_lru_bound Nat).1 _, ?_, ?_, ?_⟩
  · exact (cache_lru_bound Nat).2.1 fullCache "new" 5 fullCache_inv
      fullCache_len fullCache_lookup_new
  · exact (cache_lru_bound Nat).2.2.1 ⟨[("a", 7)], ["a"]⟩ "a" (.ok 9)
      ⟨by decide, by decide⟩ (by decide)
  · exact (cache_lru_bound Nat).2.2.2 ⟨[("a", 7)], ["a"]⟩ "b" 9 (by decide)

/-! ### Admission control (`scheduler.executeTask`)

The semaphore is a buffered channel of capacity `maxConcurrent`; a trigger
attempts a non-blocking send (`select`/`default`), an admitted execution's
`release` receives from it inside the invocation's deferred cleanup, and
with `MaxConcurrent = 0` the semaphore is bypassed entirely.  We model the
channel occupancy as an interleaved transition system: a `trigger` event is
the non-blocking send (admitted or dropped), a `finish` event is the
deferred release of one admitted execution. -/

/-- An admission-control event of one task's runner. -/
inductive SemEvent where
  | trigger
  | finish

/-- The non-blocking admission attempt of `executeTask`: with a positive
cap, succeed exactly when a slot is free, never waiting or queuing; with
cap 0, run without touching a semaphore. -/
def semTrigger (k held : Nat) : Nat × Bool :=
  if 0 < k then (if held < k then (held + 1, true) else (held, false))
  else (held, true)

/-- Channel occupancy after one event. -/
def semStep (k held : Nat) : SemEvent → Nat
  | .trigger => (semTrigger k held).1
  | .finish => held - 1

/-- Channel occupancy after a whole event history, from an idle runner. -/
def runSem (k : Nat) (events : List SemEvent) : Nat :=
  events.foldl (semStep k) 0

/-- Number of admitted invocations among `n` back-to-back trigger attempts
starting at occupancy `held` (no completion in between). -/
def admittedCount (k : Nat) : Nat → Nat → Nat
  | _, 0 => 0
  | held, n + 1 =>
      (if (semTrigger k held).2 then 1 else 0) +
        admittedCount k (semTrigger k held).1 n

theorem semStep_le {k : Nat} (hk : 0 < k) {held : Nat} (h : held ≤ k)
    (e : SemEvent) : semStep k held e ≤ k := by
  cases e with
  | finish => exact Nat.le_trans (Nat.sub_le held 1) h
  | trigger =>
      unfold semStep semTrigger
      rw [if_pos hk]
      split_ifs with h1 <;> simp <;> omega

theorem admittedCount_eq {k : Nat} (hk : 0 < k) :
    ∀ n held, held ≤ k → admittedCount k held n = min (k - held) n := by
  intro n
  induction n with
  | zero => intro held h; simp [admittedCount]
  | succ n ih =>
      intro held h
      by_cases h1 : held < k
      · have e : admittedCount k held (n + 1) =
            1 + admittedCount k (held + 1) n := by
          simp [admittedCount, semTrigger, hk, h1]
        rw [e, ih (held + 1) (by omega)]
        omega
      · have e : admittedCount k held (n + 1) = admittedCount k held n := by
          simp [admittedCount, semTrigger, hk, h1]
        rw [e, ih held h]
        omega

/-- C7: the semaphore discipline of `executeTask`.  With `maxConcurrent =
k > 0` the occupancy never exceeds `k` under any interleaving of triggers
and completions, and of `N` simultaneous trigger attempts from an idle
runner exactly `min(k, N)` are admitted and `N - min(k, N)` are rejected
immediately (dropped, never queued); with `maxConcurrent = 0` every
attempt runs, with no limit. -/
theorem admission_bound :
    (∀ (k : Nat) (events : List SemEvent), 0 < k → runSem k events ≤ k) ∧
    (∀ k n, 0 < k →
      admittedCount k 0 n = min k n ∧ n - admittedCount k 0 n = n - min k n) ∧
    (∀ n, admittedCount 0 0 n = n) := by
  refine ⟨?_, ?_, ?_⟩
  · intro k events hk
    unfold runSem
    have hgen : ∀ (evs : List SemEvent) (held : Nat), held ≤ k →
        evs.foldl (semStep k) held ≤ k := by
      intro evs
      induction evs with
      | nil => intro held h; exact h
      | cons e rest ih =>
          intro held h
          exact ih _ (semStep_le hk h e)
    exact hgen events 0 (Nat.zero_le k)
  · intro k n hk
    have h := admittedCount_eq hk n 0 (Nat.zero_le k)
    constructor
    · rw [h]; omega
    · rw [h]; omega
  · intro n
    induction n with
    | zero => rfl
    | succ n ih =>
        unfold admittedCount semTrigger
        simp [ih]
        omega

/-- Witness for C7 at `k = 2` with a trigger/finish interleaving and
`N = 5` simultaneous attempts. -/
theorem admission_bound_witness :
    runSem 2 [.trigger, .trigger, .trigger, .finish, .trigger] ≤ 2 ∧
    (admittedCount 2 0 5 = min 2 5 ∧ 5 - admittedCount 2 0 5 = 5 - min 2 5) ∧
    admittedCount 0 0 5 = 5 :=
  ⟨admission_bound.1 2 [.trigger, .trigger, .trigger, .finish, .trigger]
      (by decide),
    admission_bound.2.1 2 5 (by decide),
    admission_bound.2.2 5⟩

/-! ### `scheduler.addTask`

`addTask` holds the scheduler lock, rejects a duplicate ID, parses the
expression (`ParseStandard` for five space-separated fields, the six-field
parser otherwise — both resolve through the expression cache; the parse
function is a parameter here), and only on success registers the runner
and, if the scheduler is running, launches its loop.  The returned error
is the function's result — synchronous to the caller. -/

/-- The `addTask` error taxonomy. -/
inductive AddError where
  | duplicateTask
  | invalidSpecification
deriving DecidableEq, Repr

/-- Scheduler bookkeeping: the task map (ID to parsed schedule) and the
IDs whose runner loop has been launched. -/
structure SchedulerState (σ : Type) where
  tasks : List (String × σ)
  started : List String
  running : Bool

/-- `scheduler.addTask`. -/
def addTask (parse : String → Option σ) (st : SchedulerState σ)
    (id spec : String) : SchedulerState σ × Option AddError :=
  if (st.tasks.map Prod.fst).contains id then (st, some .duplicateTask)
  else
    match parse spec with
    | none => (st, some .invalidSpecification)
    | some sched =>
        ({ st with
            tasks := st.tasks ++ [(id, sched)],
            started := if st.running then st.started ++ [id] else st.started },
          none)

/-- C8: `addTask` fails with `DuplicateTask` when the ID is registered and
with `InvalidSpecification` when the expression does not parse; in both
failure cases the task map, the set of started runner loops, and the whole
scheduler state are unchanged, and the error is the call's synchronous
result. -/
theorem addTask_errors (σ : Type) (parse : String → Option σ)
    (st : SchedulerState σ) (id spec : String) :
    ((st.tasks.map Prod.fst).contains id = true →
      addTask parse st id spec = (st, some .duplicateTask)) ∧
    ((st.tasks.map Prod.fst).contains id = false → parse spec = none →
      addTask parse st id spec = (st, some .invalidSpecification)) ∧
    (∀ st' e, addTask parse st id spec = (st', some e) → st' = st) := by
  refine ⟨?_, ?_, ?_⟩
  · intro h
    unfold addTask
    rw [if_pos h]
  · intro h hp
    unfold addTask
    rw [if_neg (by rw [h]; simp), hp]
  · intro st' e h
    unfold addTask at h
    by_cases hdup : (st.tasks.map Prod.fst).contains id
    · rw [if_pos hdup] at h
      exact (Prod.mk.injEq .. ▸ h).1.symm
    · rw [if_neg hdup] at h
      cases hp : parse spec with
      | none =>
          rw [hp] at h
          exact (Prod.mk.injEq .. ▸ h).1.symm
      | some sched =>
          rw [hp] at h
          exact absurd (Prod.mk.injEq .. ▸ h).2 (by simp)

/-- Witness for C8: a duplicate ID and an unparseable expression. -/
theorem addTask_errors_witness :
    addTask (fun _ => (none : Option Nat)) ⟨[("a", 1)], [], false⟩ "a" "x" =
        (⟨[("a", 1)], [], false⟩, some .duplicateTask) ∧
    addTask (fun _ => (none : Option Nat)) ⟨[("a", 1)], [], false⟩ "b" "x" =
        (⟨[("a", 1)], [], false⟩, some .invalidSpecification) :=
  ⟨(addTask_errors Nat (fun _ => none) ⟨[("a", 1)], [], false⟩ "a" "x").1
      (by decide),
    (addTask_errors Nat (fun _ => none) ⟨[("a", 1)], [], false⟩ "b" "x").2.1
      (by decide) rfl⟩

/-! ### The Monitor (monitor.go)

The monitor stores `*Stats` pointers in a map; `GetStats`/`GetAllStats`
return pointers to freshly allocated copies (`statsCopy := *stats`), so
writes through a returned pointer never alias a stored entry.  Pointers
are modelled as addresses into an explicit heap; an allocation takes the
next fresh address. -/

/-- The `Stats` record (times abstracted to ticks). -/
structure Stats where
  id : String
  schedule : String
  runCount : Int
  successCount : Int
  lastRunTick : Nat
  isRunning : Bool
  createdAtTick : Nat
deriving DecidableEq, Repr

/-- The monitor: map from task ID to the address of its `*Stats`, plus the
heap those addresses point into. -/
structure Monitor where
  heap : Nat → Stats
  statsMap : List (String × Nat)
  nextAddr : Nat

/-- Stored addresses are allocated: below the fresh-address watermark. -/
def MonitorInv (m : Monitor) : Prop :=
  ∀ p ∈ m.statsMap, p.2 < m.nextAddr

instance (m : Monitor) : Decidable (MonitorInv m) := by
  unfold MonitorInv; infer_instance

/-- A write through a pointer (a `stats.X = …` on the caller's side). -/
def mutate (m : Monitor) (addr : Nat) (v : Stats) : Monitor :=
  { m with heap := fun a => if a = addr then v else m.heap a }

/-- `statsCopy := *stats`: allocate a fresh cell holding a copy of the
entry at `addr`. -/
def allocCopy (m : Monitor) (addr : Nat) : Monitor :=
  { m with
      heap := fun a => if a = m.nextAddr then m.heap addr else m.heap a,
      nextAddr := m.nextAddr + 1 }

/-- `Monitor.GetStats`: look the ID up; on a hit return the address of a
fresh copy of the entry. -/
def getStats (m : Monitor) (id : String) : Option Nat × Monitor :=
  match m.statsMap.lookup id with
  | none => (none, m)
  | some addr => (some m.nextAddr, allocCopy m addr)

/-- The copying loop of `Monitor.GetAllStats`: a fresh copy per entry,
returning the ID-to-copy-address table. -/
def getAllStatsGo : List (String × Nat) → Monitor → List (String × Nat) × Monitor
  | [], m => ([], m)
  | (id, addr) :: rest, m =>
      match getAllStatsGo rest (allocCopy m addr) with
      | (res, m2) => ((id, m.nextAddr) :: res, m2)

/-- `Monitor.GetAllStats`. -/
def getAllStats (m : Monitor) : List (String × Nat) × Monitor :=
  getAllStatsGo m.statsMap m

/-- `Monitor.recordExecution`: unknown IDs are ignored; otherwise bump the
counters and the last-run time in place. -/
def recordExecution (m : Monitor) (id : String) (success : Bool)
    (now : Nat) : Monitor :=
  match m.statsMap.lookup id with
  | none => m
  | some addr =>
      mutate m addr
        { m.heap addr with
            runCount := (m.heap addr).runCount + 1,
            successCount := (m.heap addr).successCount +
              (if success then 1 else 0),
            lastRunTick := now }

/-- `Monitor.setRunning`: unknown IDs are ignored. -/
def setRunning (m : Monitor) (id : String) (running : Bool) : Monitor :=
  match m.statsMap.lookup id with
  | none => m
  | some addr => mutate m addr { m.heap addr with isRunning := running }

theorem allocCopy_statsMap (m : Monitor) (addr : Nat) :
    (allocCopy m addr).statsMap = m.statsMap := rfl

theorem allocCopy_nextAddr (m : Monitor) (addr : Nat) :
    (allocCopy m addr).nextAddr = m.nextAddr + 1 := rfl

theorem allocCopy_heap_ne (m : Monitor) (addr : Nat) {a : Nat}
    (h : a ≠ m.nextAddr) : (allocCopy m addr).heap a = m.heap a := by
  unfold allocCopy
  show (if a = m.nextAddr then m.heap addr else m.heap a) = m.heap a
  rw [if_neg h]

theorem getAllStatsGo_spec (entries : List (String × Nat)) :
    ∀ m : Monitor,
      (getAllStatsGo entries m).2.statsMap = m.statsMap ∧
      m.nextAddr ≤ (getAllStatsGo entries m).2.nextAddr ∧
      (∀ a, a < m.nextAddr →
        (getAllStatsGo entries m).2.heap a = m.heap a) ∧
      (∀ p ∈ (getAllStatsGo entries m).1, m.nextAddr ≤ p.2) := by
  induction entries with
  | nil =>
      intro m
      exact ⟨rfl, Nat.le_refl _, fun _ _ => rfl, by simp [getAllStatsGo]⟩
  | cons e rest ih =>
      intro m
      obtain ⟨id, addr⟩ := e
      obtain ⟨h1, h2, h3, h4⟩ := ih (allocCopy m addr)
      have hsm : (getAllStatsGo ((id, addr) :: rest) m).2 =
          (getAllStatsGo rest (allocCopy m addr)).2 := rfl
      have hfst : (getAllStatsGo ((id, addr) :: rest) m).1 =
          (id, m.nextAddr) :: (getAllStatsGo rest (allocCopy m addr)).1 := rfl
      rw [allocCopy_statsMap] at h1
      rw [allocCopy_nextAddr] at h2
      refine ⟨by rw [hsm, h1], by rw [hsm]; omega, ?_, ?_⟩
      · intro a ha
        rw [hsm, h3 a (by rw [allocCopy_nextAddr]; omega),
          allocCopy_heap_ne m addr (by omega)]
      · intro p hp
        rw [hfst] at hp
        rcases List.mem_cons.mp hp with h | h
        · rw [h]
        · have := h4 p h
          rw [allocCopy_nextAddr] at this
          omega

/-- C9: `GetStats` and `GetAllStats` return defensive copies — the
returned addresses are fresh (distinct from every stored address), the
copied value equals the stored one, and writing through a returned address
leaves every stored `Stats` entry unchanged — and `recordExecution` and
`setRunning` for an unregistered task ID are no-ops on the whole
monitor. -/
theorem monitor_defensive_copies (m : Monitor) (id : String) :
    (∀ srcAddr, MonitorInv m → m.statsMap.lookup id = some srcAddr →
      (getStats m id).1 = some m.nextAddr ∧
      (getStats m id).2.statsMap = m.statsMap ∧
      (getStats m id).2.heap m.nextAddr = m.heap srcAddr ∧
      (∀ a ∈ m.statsMap.map Prod.snd, m.nextAddr ≠ a) ∧
      (∀ v, ∀ a ∈ m.statsMap.map Prod.snd,
        (mutate (getStats m id).2 m.nextAddr v).heap a = m.heap a)) ∧
    (MonitorInv m →
      (getAllStats m).2.statsMap = m.statsMap ∧
      (∀ p ∈ (getAllStats m).1, ∀ a ∈ m.statsMap.map Prod.snd, p.2 ≠ a) ∧
      (∀ v, ∀ p ∈ (getAllStats m).1, ∀ a ∈ m.statsMap.map Prod.snd,
        (mutate (getAllStats m).2 p.2 v).heap a = m.heap a)) ∧
    (m.statsMap.lookup id = none →
      (∀ success now, recordExecution m id success now = m) ∧
      (∀ running, setRunning m id running = m)) := by
  refine ⟨?_, ?_, ?_⟩
  · intro srcAddr hinv hl
    have hres : getStats m id = (some m.nextAddr, allocCopy m srcAddr) := by
      unfold getStats
      rw [hl]
    have hfresh : ∀ a ∈ m.statsMap.map Prod.snd, m.nextAddr ≠ a := by
      intro a ha
      obtain ⟨p, hp, hpa⟩ := List.mem_map.mp ha
      have := hinv p hp
      omega
    rw [hres]
    refine ⟨rfl, rfl, by simp [allocCopy], hfresh, ?_⟩
    intro v a ha
    have hne : a ≠ m.nextAddr := fun hc => hfresh a ha hc.symm
    show (if a = m.nextAddr then v else (allocCopy m srcAddr).heap a) =
      m.heap a
    rw [if_neg hne, allocCopy_heap_ne m srcAddr hne]
  · intro hinv
    obtain ⟨h1, h2, h3, h4⟩ := getAllStatsGo_spec m.statsMap m
    have hfresh : ∀ p ∈ (getAllStats m).1, ∀ a ∈ m.statsMap.map Prod.snd,
        p.2 ≠ a := by
      intro p hp a ha
      obtain ⟨q, hq, hqa⟩ := List.mem_map.mp ha
      have hlow := hinv q hq
      have hhigh := h4 p hp
      omega
    refine ⟨h1, hfresh, ?_⟩
    intro v p hp a ha
    obtain ⟨q, hq, hqa⟩ := List.mem_map.mp ha
    have hlow := hinv q hq
    have hne : a ≠ p.2 := fun hc => hfresh p hp a ha hc.symm
    show (if a = p.2 then v else (getAllStats m).2.heap a) = m.heap a
    rw [if_neg hne]
    exact h3 a (by omega)
  · intro hl
    constructor
    · intro success now
      unfold recordExecution
      rw [hl]
    · intro running
      unfold setRunning
      rw [hl]

/-- A one-task monitor used as the C9 witness. -/
def exMonitor : Monitor :=
  ⟨fun _ => ⟨"", "", 0, 0, 0, false, 0⟩, [("job", 0)], 1⟩

/-- Witness for C9 at a one-task monitor, querying the registered task
`"job"` and the unregistered `"ghost"`. -/
theorem monitor_defensive_copies_witness :
    ((getStats exMonitor "job").1 = some exMonitor.nextAddr ∧
      (getStats exMonitor "job").2.statsMap = exMonitor.statsMap ∧
      (getStats exMonitor "job").2.heap exMonitor.nextAddr = exMonitor.heap 0 ∧
      (∀ a ∈ exMonitor.statsMap.map Prod.snd, exMonitor.nextAddr ≠ a) ∧
      (∀ v, ∀ a ∈ exMonitor.statsMap.map Prod.snd,
        (mutate (getStats exMonitor "job").2 exMonitor.nextAddr v).heap a =
          exMonitor.heap a)) ∧
    ((getAllStats exMonitor).2.statsMap = exMonitor.statsMap ∧
      (∀ p ∈ (getAllStats exMonitor).1,
        ∀ a ∈ exMonitor.statsMap.map Prod.snd, p.2 ≠ a) ∧
      (∀ v, ∀ p ∈ (getAllStats exMonitor).1,
        ∀ a ∈ exMonitor.statsMap.map Prod.snd,
        (mutate (getAllStats exMonitor).2 p.2 v).heap a = exMonitor.heap a)) ∧
    ((∀ success now, recordExecution exMonitor "ghost" success now = exMonitor) ∧
      (∀ running, setRunning exMonitor "ghost" running = exMonitor)) :=
  ⟨(monitor_defensive_copies exMonitor "job").1 0 (by decide) (by decide),
    (monitor_defensive_copies exMonitor "job").2.1 (by decide),
    (monitor_defensive_copies exMonitor "ghost").2.2 (by decide)⟩

end Cron
